import Mathlib

/-!
# Verification of the supercronic scheduling-and-execution engine

A shallow embedding of the cron package (stream drain, process runner,
stall monitor, job scheduling loop) and of the orchestration in main.go,
with theorems settling the specification claims.

Conventions of the embedding:
* Wall-clock instants are natural numbers (the unit is irrelevant).
* Bytes are natural numbers; an output stream is the list of results the
  buffered line reader would return, in order.
* Concurrency is modelled by a deterministic discrete-time trace semantics:
  each component is a function from its inputs (including an oracle for
  child-process durations and the instant the cancellation token fires)
  to the list of observable events it emits.
-/

namespace Supercronic

/-! ## Stream Drain (startReaderDrain)

The drain wraps the pipe in a buffered reader of `READ_BUFFER_SIZE` bytes
and loops on `ReadLine`.  One call to `ReadLine` yields either a slice of
bytes together with the flag saying the line exceeded the buffer, or an
end condition: clean EOF, an error containing `os.ErrClosed`, or any
other error. -/

/-- The bounded line buffer size: `READ_BUFFER_SIZE = 64 * 1024`. -/
def READ_BUFFER_SIZE : Nat := 64 * 1024

/-- One result of a buffered `ReadLine` call.  `line bs more` returns the
bytes `bs`; `more = true` is the reader's flag that the logical line did
not fit in the buffer and continues.  `eofEnd` is clean EOF, `closedErr`
is an error whose text contains `os.ErrClosed`, `otherErr` any other
read error. -/
inductive ReadResult where
  | line (bytes : List Nat) (more : Bool)
  | eofEnd
  | closedErr
  | otherErr (msg : String)
deriving DecidableEq, Repr

/-- Observable actions of one Stream Drain. -/
inductive DrainEvent where
  | info (bytes : List Nat)
  | truncWarn
  | readErrLog (msg : String)
  | closeReader
  | wgDone
deriving DecidableEq, Repr

/-- The reading loop of `startReaderDrain`: each successful `ReadLine`
logs the bytes at info level and, when the buffer overflowed, the
"last line exceeded buffer size, continuing..." warning; the loop breaks
on the first end condition, logging an error only for `otherErr`. -/
def drainLoop : List ReadResult → List DrainEvent
  | [] => []
  | .line bs more :: rest =>
      .info bs :: ((if more then [.truncWarn] else []) ++ drainLoop rest)
  | .eofEnd :: _ => []
  | .closedErr :: _ => []
  | .otherErr m :: _ => [.readErrLog m]

/-- `startReaderDrain` runs `drainLoop` and then, via its deferred block,
closes the underlying reader and signals the wait group. -/
def drainEvents (stream : List ReadResult) : List DrainEvent :=
  drainLoop stream ++ [.closeReader, .wgDone]

/-- How the buffered reader cuts one logical line of bytes into
`ReadLine` results, for a buffer of `B` bytes: while the line has at
least `B` bytes the buffer fills before the newline is seen and a full
buffer is returned with the continuation flag set; once fewer than `B`
bytes remain, the rest is returned with the flag clear. -/
def chunkLine (B : Nat) (l : List Nat) : List (List Nat × Bool) :=
  if hc : B = 0 ∨ l.length < B then [(l, false)]
  else (l.take B, true) :: chunkLine B (l.drop B)
termination_by l.length
decreasing_by
  simp only [not_or, Nat.not_lt] at hc
  simp only [List.length_drop]
  omega

/-- The `ReadLine` results produced by one logical line. -/
def lineResults (B : Nat) (l : List Nat) : List ReadResult :=
  (chunkLine B l).map (fun c => .line c.1 c.2)

/-- A whole stream: the logical lines in order, then a tail of end
condition results. -/
def bufioStream (B : Nat) (lines : List (List Nat)) (tail : List ReadResult) : List ReadResult :=
  (lines.map (lineResults B)).flatten ++ tail

/-- The drain events contributed by one logical line. -/
def lineEvents (B : Nat) (l : List Nat) : List DrainEvent :=
  ((chunkLine B l).map (fun c => .info c.1 :: (if c.2 then [.truncWarn] else []))).flatten

/-! ## Child environment (runJob, lines 72-76)

`runJob` sets `cmd.Env` to `os.Environ()` with one `k=v` entry appended
per variable of the crontab context.  The child observes, for each key,
the value of the last entry carrying that key (the semantics of duplicate
entries in the environment passed to the child: the later entry wins). -/

/-- The value the child process observes for `key` in an environment
list: the value of the last entry whose key is `key`, if any. -/
def observeEnv : List (String × String) → String → Option String
  | [], _ => none
  | p :: rest, key =>
      match observeEnv rest key with
      | some v => some v
      | none => if p.1 = key then some p.2 else none

/-- `runJob` builds the child environment: the inherited environment
followed by the context's override entries (`env := os.Environ()` then
one `append` per override). -/
def buildEnv (parent overrides : List (String × String)) : List (String × String) :=
  parent ++ overrides

/-! ## Process runner (runJob) -/

/-- How the child process terminated. -/
inductive ProcExit where
  | exited (code : Nat)
  | signaled (sig : String)
deriving DecidableEq, Repr

/-- The error returned by `cmd.Wait()`: none for a zero exit status, the
underlying exit detail otherwise. -/
def waitErr : ProcExit → Option String
  | .exited 0 => none
  | .exited c => some ("exit status " ++ toString c)
  | .signaled s => some ("signal: " ++ s)

/-- Observable milestones of one `runJob` call, in order of occurrence. -/
inductive RunEvent where
  | logStarting
  | drainDone (channel : String)
  | childWaited
deriving DecidableEq, Repr

/-- The fallible inputs of one `runJob` call: whether each pipe
acquisition and the start failed, and how the child exited if started. -/
structure RunInput where
  stdoutPipeErr : Option String
  stderrPipeErr : Option String
  startErr : Option String
  exit : ProcExit
deriving DecidableEq, Repr

/-- `runJob`: log "starting"; acquire the stdout and stderr pipes and
start the child, returning the error on the first failure; otherwise
wait for both drains (`wg.Wait()`), then `cmd.Wait()`, wrapping a
non-nil wait error as "error running command: ...". -/
def runJob (inp : RunInput) : List RunEvent × Option String :=
  match inp.stdoutPipeErr with
  | some e => ([.logStarting], some e)
  | none =>
    match inp.stderrPipeErr with
    | some e => ([.logStarting], some e)
    | none =>
      match inp.startErr with
      | some e => ([.logStarting], some e)
      | none =>
        let evs := [RunEvent.logStarting, .drainDone "stdout", .drainDone "stderr", .childWaited]
        match waitErr inp.exit with
        | some e => (evs, some ("error running command: " ++ e))
        | none => (evs, none)

/-! ## Stall Monitor (monitorJob)

`monitorJob` keeps a cursor `t` starting at the invocation's scheduled
start `t0`; each round it advances `t` to `expression.Next(t)` and then
selects between the timer firing at `t` and the monitor context being
cancelled.  The context is cancelled the moment the owning invocation's
`runJob` call returns; `tc` below is that instant.  The timer wins a
round exactly when it expires strictly before the cancellation. -/

/-- The instants at which `monitorJob` emits its "job is still running"
warning, given the schedule's `Next` function, a fuel bound on rounds,
the cursor start, and the cancellation instant `tc`. -/
def monitorWarnTimes (next : Nat → Nat) : Nat → Nat → Nat → List Nat
  | 0, _, _ => []
  | fuel + 1, t, tc =>
      let t2 := next t
      if t2 < tc then t2 :: monitorWarnTimes next fuel t2 tc else []

/-- The schedule's fire times strictly after `t0`, as iterates of `next`:
`next t0`, `next (next t0)`, and so on. -/
def fireTimes (next : Nat → Nat) (t0 : Nat) (n : Nat) : List Nat :=
  (List.range n).map (fun k => next^[k + 1] t0)

/-! ## Job Scheduling Loop (startFunc)

The loop goroutine keeps `nextRun` and `cronIteration`; we add the
current wall-clock instant `now`.  One pass of the `for` body:
advance `nextRun := Next(nextRun)`; if the delay `nextRun - now` is
negative, warn and reset `nextRun := now` and continue; otherwise select
between the exit context and a timer expiring at `nextRun`, returning if
the exit context wins; otherwise fire the invocation (serialized mode
runs it inline, so the clock advances past its whole duration;
overlapping mode dispatches it as a goroutine) and increment the
counter.  The inputs are collected in `SchedEnv`: the `Next` function,
an oracle giving each invocation's duration by iteration number, the
instant the cancellation token fires (if ever), and the overlap flag. -/

/-- The parameters of one job's scheduling loop. -/
structure SchedEnv where
  next : Nat → Nat
  dur : Nat → Nat
  cancelAt : Option Nat
  overlapping : Bool

/-- The loop's mutable state: the clock, `nextRun`, `cronIteration`. -/
structure SchedState where
  now : Nat
  nextRun : Nat
  iter : Nat
deriving DecidableEq, Repr

/-- Observable events of one scheduling loop.  A `fired` event records
the invocation's iteration counter, scheduled time `t0`, actual start,
and the instant its `runJob` call returns. -/
inductive SchedEvent where
  | overdueWarn (lateBy : Nat)
  | fired (iter t0 tstart tend : Nat)
  | shutdown (t : Nat)
deriving DecidableEq, Repr

/-- Whether the cancellation token fires strictly before instant `t`. -/
def cancelBefore : Option Nat → Nat → Bool
  | none, _ => false
  | some c, t => c < t

/-- One pass of the `for` body of `startFunc`.  Returns the events of the
pass and the next state, or `none` when the loop returns (exit context
observed in the select). -/
def schedStep (E : SchedEnv) (s : SchedState) : List SchedEvent × Option SchedState :=
  let nr := E.next s.nextRun
  if nr < s.now then
    ([.overdueWarn (s.now - nr)], some ⟨s.now, s.now, s.iter⟩)
  else if cancelBefore E.cancelAt nr then
    ([.shutdown (max s.now (E.cancelAt.getD 0))], none)
  else
    let te := nr + E.dur s.iter
    ([.fired s.iter nr nr te],
     some ⟨if E.overlapping then nr else te, nr, s.iter + 1⟩)

/-- The loop run for at most `fuel` passes.  The boolean is `true` when
the loop returned by observing the exit context within the fuel. -/
def schedRun (E : SchedEnv) : Nat → SchedState → List SchedEvent × Bool
  | 0, _ => ([], false)
  | fuel + 1, s =>
      match schedStep E s with
      | (evs, none) => (evs, true)
      | (evs, some s2) =>
          let r := schedRun E fuel s2
          (evs ++ r.1, r.2)

/-- `startFunc` launched at instant `t0`: `nextRun` is initialised to the
current time and the iteration counter to zero. -/
def startFunc (E : SchedEnv) (fuel t0 : Nat) : List SchedEvent × Bool :=
  schedRun E fuel ⟨t0, t0, 0⟩

/-- One fired invocation, extracted from the event trace. -/
structure Fire where
  iter : Nat
  t0 : Nat
  tstart : Nat
  tend : Nat
deriving DecidableEq, Repr

/-- The fired invocations of a trace, in order. -/
def firesOf : List SchedEvent → List Fire
  | [] => []
  | .fired i t0 ts te :: rest => ⟨i, t0, ts, te⟩ :: firesOf rest
  | .overdueWarn _ :: rest => firesOf rest
  | .shutdown _ :: rest => firesOf rest

/-- How many fired invocations of the list are executing at instant `t`
(an invocation executes on the half-open interval from its start to its
end). -/
def executingAt (fs : List Fire) (t : Nat) : Nat :=
  (fs.filter (fun f => decide (f.tstart ≤ t ∧ t < f.tend))).length

/-- The instant an event stops mattering for the loop goroutine's exit:
a fired invocation holds `jobWg` until its end, the loop body itself
returns at the shutdown instant. -/
def eventEnd : SchedEvent → Nat
  | .fired _ _ _ te => te
  | .shutdown t => t
  | .overdueWarn _ => 0

/-- The instant the loop goroutine of `startFunc` finishes: the loop
body returns (at the shutdown instant), then the deferred
`jobWg.Wait()` waits for every dispatched invocation to end, and only
then does the deferred `wg.Done()` run. -/
def loopExit (evs : List SchedEvent) : Nat :=
  evs.foldl (fun m e => max m (eventEnd e)) 0

/-- The instant the orchestrator's `wg.Wait()` returns after
`notifyExit()`: every job loop must have deregistered. -/
def orchestratorWait (runs : List (List SchedEvent)) : Nat :=
  runs.foldl (fun m evs => max m (loopExit evs)) 0

/-! ## Concrete example inputs used to exercise the model -/

/-- An absolute-grid schedule: the next multiple of ten after `t`. -/
def tensNext : Nat → Nat := fun t => (t / 10 + 1) * 10

/-- A serialized job on the tens grid whose invocations take 25 ticks,
so every invocation overruns the following fire time. -/
def slowEnv : SchedEnv := ⟨tensNext, fun _ => 25, none, false⟩

/-- A serialized job on the tens grid whose invocations take exactly one
period, producing a computed delay of exactly zero. -/
def exactEnv : SchedEnv := ⟨tensNext, fun _ => 10, none, false⟩

/-- A serialized job on the tens grid, 3-tick invocations, with the
cancellation token firing at instant 25. -/
def cancelEnv : SchedEnv := ⟨tensNext, fun _ => 3, some 25, false⟩

/-- A slow serialized job whose cancellation token fired at instant 0. -/
def earlyCancelEnv : SchedEnv := ⟨tensNext, fun _ => 25, some 0, false⟩

/-! ## Lemmas about the Stream Drain -/

lemma drainLoop_line_results (cs : List (List Nat × Bool)) (rest : List ReadResult) :
    drainLoop (cs.map (fun c => ReadResult.line c.1 c.2) ++ rest)
      = (cs.map (fun c => DrainEvent.info c.1 :: (if c.2 then [.truncWarn] else []))).flatten
          ++ drainLoop rest := by
  induction cs with
  | nil => simp
  | cons c cs ih => simp [drainLoop, ih]

lemma chunkLine_flatten (B : Nat) (l : List Nat) :
    ((chunkLine B l).map Prod.fst).flatten = l := by
  refine chunkLine.induct B (fun l => ((chunkLine B l).map Prod.fst).flatten = l) ?_ ?_ l
  · intro x hc
    simp [chunkLine, hc]
  · intro x hc ih
    rw [chunkLine]
    simp only [hc, dite_false]
    simpa [ih] using List.take_append_drop B x

lemma drainEvents_bufio (B : Nat) (lines : List (List Nat)) :
    drainEvents (bufioStream B lines [.eofEnd])
      = (lines.map (lineEvents B)).flatten ++ [.closeReader, .wgDone] := by
  unfold drainEvents bufioStream
  congr 1
  induction lines with
  | nil => simp [drainLoop]
  | cons l ls ih =>
      simp only [List.map_cons, List.flatten_cons, List.append_assoc]
      rw [lineResults, drainLoop_line_results, ih, lineEvents]

lemma drainLoop_no_deferred (s : List ReadResult) :
    DrainEvent.closeReader ∉ drainLoop s ∧ DrainEvent.wgDone ∉ drainLoop s := by
  induction s with
  | nil => simp [drainLoop]
  | cons r rest ih =>
      cases r with
      | line bs more =>
          cases more <;> simp [drainLoop, ih.1, ih.2]
      | eofEnd => simp [drainLoop]
      | closedErr => simp [drainLoop]
      | otherErr m => simp [drainLoop]

/-- Claim C7: for every output stream (with buffer size `B > 0`), the
drain turns the logical lines into log records and keeps going: the full
event trace is the per-line events followed by the deferred close and
completion signal; the chunks of each logical line concatenate back to
the whole line (no data is dropped and no length stops the drain); and a
line longer than the buffer first yields the partial content read so far
as an info record, immediately followed by the truncation warning, and
the remainder of the logical line continues as further records. -/
theorem drain_truncation_continues (B : Nat) (hB : 0 < B) (lines : List (List Nat)) :
    drainEvents (bufioStream B lines [.eofEnd])
      = (lines.map (lineEvents B)).flatten ++ [.closeReader, .wgDone]
    ∧ (∀ l : List Nat, ((chunkLine B l).map Prod.fst).flatten = l)
    ∧ (∀ l : List Nat, B < l.length →
        lineEvents B l
          = .info (l.take B) :: .truncWarn :: lineEvents B (l.drop B)) := by
  refine ⟨drainEvents_bufio B lines, fun l => chunkLine_flatten B l, fun l hl => ?_⟩
  have hc : ¬ (B = 0 ∨ l.length < B) := by omega
  rw [lineEvents, chunkLine]
  simp only [hc, dite_false, List.map_cons, List.flatten_cons, if_true]
  rfl

theorem drain_truncation_continues_witness :
    0 < 3
    ∧ (drainEvents (bufioStream 3 [[1, 2, 3, 4, 5]] [.eofEnd])
        = ([[1, 2, 3, 4, 5]].map (lineEvents 3)).flatten ++ [.closeReader, .wgDone]
      ∧ (∀ l : List Nat, ((chunkLine 3 l).map Prod.fst).flatten = l)
      ∧ (∀ l : List Nat, 3 < l.length →
          lineEvents 3 l
            = .info (l.take 3) :: .truncWarn :: lineEvents 3 (l.drop 3))) :=
  ⟨by decide, drain_truncation_continues 3 (by decide) [[1, 2, 3, 4, 5]]⟩

/-- Claim C9: the drain stops at its first read error of any kind —
results after the first non-line result never reach the logger (the trace
does not depend on them) — and every termination closes the reader
exactly once and signals the wait group exactly once. -/
theorem drain_stops_after_error (pre post : List ReadResult) (r : ReadResult)
    (hpre : ∀ x ∈ pre, ∃ bs m, x = ReadResult.line bs m)
    (hr : ∀ bs m, r ≠ ReadResult.line bs m) :
    drainEvents (pre ++ r :: post) = drainEvents (pre ++ [r])
    ∧ (∀ s : List ReadResult,
        (drainEvents s).count DrainEvent.closeReader = 1
        ∧ (drainEvents s).count DrainEvent.wgDone = 1) := by
  constructor
  · unfold drainEvents
    congr 1
    induction pre with
    | nil =>
        cases r with
        | line bs m => exact absurd rfl (hr bs m)
        | eofEnd => simp [drainLoop]
        | closedErr => simp [drainLoop]
        | otherErr m => simp [drainLoop]
    | cons x pre ih =>
        obtain ⟨bs, m, rfl⟩ := hpre x (by simp)
        have ih2 := ih (fun y hy => hpre y (by simp [hy]))
        simp [drainLoop, ih2]
  · intro s
    have h := drainLoop_no_deferred s
    unfold drainEvents
    rw [List.count_append, List.count_append]
    rw [List.count_eq_zero_of_not_mem h.1, List.count_eq_zero_of_not_mem h.2]
    constructor <;> decide

theorem drain_stops_after_error_witness :
    (∀ x ∈ [ReadResult.line [1] false], ∃ bs m, x = ReadResult.line bs m)
    ∧ (∀ bs m, ReadResult.otherErr "boom" ≠ ReadResult.line bs m)
    ∧ (drainEvents ([ReadResult.line [1] false] ++ .otherErr "boom" :: [.line [2] false])
        = drainEvents ([ReadResult.line [1] false] ++ [.otherErr "boom"])
      ∧ (∀ s : List ReadResult,
          (drainEvents s).count DrainEvent.closeReader = 1
          ∧ (drainEvents s).count DrainEvent.wgDone = 1)) := by
  have hpre : ∀ x ∈ [ReadResult.line [1] false], ∃ bs m, x = ReadResult.line bs m := by
    intro x hx
    exact ⟨[1], false, by simpa using hx⟩
  have hr : ∀ bs m, ReadResult.otherErr "boom" ≠ ReadResult.line bs m := by
    intro bs m h
    cases h
  exact ⟨hpre, hr,
    drain_stops_after_error [.line [1] false] [.line [2] false] (.otherErr "boom") hpre hr⟩

/-! ## Lemmas about the child environment -/

lemma observeEnv_append_of_some {b : List (String × String)} {k : String} {v : String}
    (a : List (String × String)) (h : observeEnv b k = some v) :
    observeEnv (a ++ b) k = some v := by
  induction a with
  | nil => simpa using h
  | cons p a ih => simp [observeEnv, ih]

lemma observeEnv_append_of_none {b : List (String × String)} {k : String}
    (a : List (String × String)) (h : observeEnv b k = none) :
    observeEnv (a ++ b) k = observeEnv a k := by
  induction a with
  | nil => simpa using h
  | cons p a ih => simp [observeEnv, ih]

lemma observeEnv_of_not_mem {l : List (String × String)} {k : String}
    (h : k ∉ l.map Prod.fst) : observeEnv l k = none := by
  induction l with
  | nil => rfl
  | cons p l ih =>
      simp only [List.map_cons, List.mem_cons, not_or] at h
      have hk : p.1 ≠ k := fun he => h.1 he.symm
      simp [observeEnv, ih h.2, hk]

lemma observeEnv_of_mem_nodup {l : List (String × String)} {k v : String}
    (hnd : (l.map Prod.fst).Nodup) (h : (k, v) ∈ l) :
    observeEnv l k = some v := by
  induction l with
  | nil => simp at h
  | cons p l ih =>
      simp only [List.map_cons, List.nodup_cons] at hnd
      rcases List.mem_cons.mp h with he | hm
      · have hnone : observeEnv l k = none := by
          apply observeEnv_of_not_mem
          rw [← he] at hnd
          exact hnd.1
        rw [← he]
        simp [observeEnv, hnone]
      · simp [observeEnv, ih hnd.2 hm]

/-- Claim C6: the child environment is the inherited environment overlaid
with the execution context's overrides.  For every key an override
defines, the child observes the override's value (on collision the
override entry, appended after the inherited entries, wins); for every
other key the child observes exactly what the inherited environment
says. -/
theorem child_env_override_wins (parent overrides : List (String × String))
    (hnd : (overrides.map Prod.fst).Nodup) :
    (∀ k v, (k, v) ∈ overrides →
        observeEnv (buildEnv parent overrides) k = some v)
    ∧ (∀ k, k ∉ overrides.map Prod.fst →
        observeEnv (buildEnv parent overrides) k = observeEnv parent k) := by
  constructor
  · intro k v hm
    exact observeEnv_append_of_some parent (observeEnv_of_mem_nodup hnd hm)
  · intro k hk
    exact observeEnv_append_of_none parent (observeEnv_of_not_mem hk)

theorem child_env_override_wins_witness :
    ([("PATH", "/o"), ("HOME", "/h")].map (Prod.fst (β := String))).Nodup
    ∧ ((∀ k v, (k, v) ∈ [("PATH", "/o"), ("HOME", "/h")] →
        observeEnv (buildEnv [("PATH", "/usr"), ("TERM", "x")] [("PATH", "/o"), ("HOME", "/h")]) k
          = some v)
      ∧ (∀ k, k ∉ [("PATH", "/o"), ("HOME", "/h")].map Prod.fst →
          observeEnv (buildEnv [("PATH", "/usr"), ("TERM", "x")] [("PATH", "/o"), ("HOME", "/h")]) k
            = observeEnv [("PATH", "/usr"), ("TERM", "x")] k)) :=
  ⟨by decide, child_env_override_wins [("PATH", "/usr"), ("TERM", "x")]
      [("PATH", "/o"), ("HOME", "/h")] (by decide)⟩

/-! ## Lemmas about the process runner -/

/-- Claim C4: once the child was successfully started (pipes acquired and
start succeeded), `runJob` returns no error exactly when the child exits
with status zero; any non-zero exit or termination by signal yields the
error wrapping the underlying exit detail; and the full milestone trace
shows both channel drains completing (the `wg.Wait()`) before the child
wait and the return, in every case. -/
theorem runJob_reports_exit (inp : RunInput)
    (h1 : inp.stdoutPipeErr = none) (h2 : inp.stderrPipeErr = none)
    (h3 : inp.startErr = none) :
    ((runJob inp).2 = none ↔ inp.exit = .exited 0)
    ∧ (∀ e, waitErr inp.exit = some e →
        (runJob inp).2 = some ("error running command: " ++ e))
    ∧ (runJob inp).1
        = [.logStarting, .drainDone "stdout", .drainDone "stderr", .childWaited] := by
  obtain ⟨o, r, st, ex⟩ := inp
  simp only at h1 h2 h3
  subst h1; subst h2; subst h3
  cases ex with
  | exited c =>
      cases c with
      | zero => simp [runJob, waitErr]
      | succ n => simp [runJob, waitErr]
  | signaled s => simp [runJob, waitErr]

theorem runJob_reports_exit_witness :
    (⟨none, none, none, .exited 2⟩ : RunInput).stdoutPipeErr = none
    ∧ (⟨none, none, none, .exited 2⟩ : RunInput).stderrPipeErr = none
    ∧ (⟨none, none, none, .exited 2⟩ : RunInput).startErr = none
    ∧ (((runJob ⟨none, none, none, .exited 2⟩).2 = none
          ↔ (⟨none, none, none, .exited 2⟩ : RunInput).exit = .exited 0)
      ∧ (∀ e, waitErr (⟨none, none, none, .exited 2⟩ : RunInput).exit = some e →
          (runJob ⟨none, none, none, .exited 2⟩).2 = some ("error running command: " ++ e))
      ∧ (runJob ⟨none, none, none, .exited 2⟩).1
          = [.logStarting, .drainDone "stdout", .drainDone "stderr", .childWaited]) :=
  ⟨rfl, rfl, rfl, runJob_reports_exit ⟨none, none, none, .exited 2⟩ rfl rfl rfl⟩

/-! ## Lemmas about the Stall Monitor -/

lemma fireTimes_succ (next : Nat → Nat) (t0 n : Nat) :
    fireTimes next t0 (n + 1) = next t0 :: fireTimes next (next t0) n := by
  unfold fireTimes
  rw [List.range_succ_eq_map]
  simp [List.map_map, Function.comp_def, Function.iterate_succ_apply]

lemma monitorWarnTimes_eq_takeWhile (next : Nat → Nat) (fuel : Nat) :
    ∀ t0 tc, monitorWarnTimes next fuel t0 tc
      = (fireTimes next t0 fuel).takeWhile (fun t => decide (t < tc)) := by
  induction fuel with
  | zero => intro t0 tc; simp [monitorWarnTimes, fireTimes]
  | succ n ih =>
      intro t0 tc
      rw [fireTimes_succ, List.takeWhile_cons]
      by_cases h : next t0 < tc
      · simp [monitorWarnTimes, h, ih]
      · simp [monitorWarnTimes, h]

lemma monitorWarnTimes_mem {next : Nat → Nat} (hmono : ∀ t, t < next t) (fuel : Nat) :
    ∀ t tc w, w ∈ monitorWarnTimes next fuel t tc → next t ≤ w ∧ w < tc := by
  induction fuel with
  | zero => intro t tc w hw; simp [monitorWarnTimes] at hw
  | succ n ih =>
      intro t tc w hw
      rw [monitorWarnTimes] at hw
      by_cases h : next t < tc
      · simp only [h, if_true, List.mem_cons] at hw
        rcases hw with rfl | hw
        · exact ⟨le_refl _, h⟩
        · have := ih (next t) tc w hw
          exact ⟨le_of_lt (lt_of_lt_of_le (hmono (next t)) this.1), this.2⟩
      · simp [h] at hw

/-- Claim C8: for an invocation starting at `t0` whose `runJob` call
returns at `tc` (the instant the deferred `cancelMonitor` runs), the
Stall Monitor warns exactly at the schedule's successive fire times
after `t0` for as long as they precede `tc`; hence every warning is no
earlier than the first fire time after `t0` and is emitted while the
invocation still runs, and an invocation that completes before its first
fire time gets zero warnings. -/
theorem stall_monitor_fire_times (next : Nat → Nat) (hmono : ∀ t, t < next t)
    (fuel t0 tc : Nat) :
    monitorWarnTimes next fuel t0 tc
      = (fireTimes next t0 fuel).takeWhile (fun t => decide (t < tc))
    ∧ (∀ w ∈ monitorWarnTimes next fuel t0 tc, next t0 ≤ w ∧ w < tc)
    ∧ (tc ≤ next t0 → monitorWarnTimes next fuel t0 tc = []) := by
  refine ⟨monitorWarnTimes_eq_takeWhile next fuel t0 tc,
    fun w hw => monitorWarnTimes_mem hmono fuel t0 tc w hw, fun hq => ?_⟩
  cases fuel with
  | zero => rfl
  | succ n =>
      rw [monitorWarnTimes]
      have h : ¬ next t0 < tc := by omega
      simp [h]

theorem stall_monitor_fire_times_witness :
    (∀ t, t < t + 5)
    ∧ (monitorWarnTimes (fun t => t + 5) 3 0 12
        = (fireTimes (fun t => t + 5) 0 3).takeWhile (fun t => decide (t < 12))
      ∧ (∀ w ∈ monitorWarnTimes (fun t => t + 5) 3 0 12, 0 + 5 ≤ w ∧ w < 12)
      ∧ (12 ≤ 0 + 5 → monitorWarnTimes (fun t => t + 5) 3 0 12 = [])) := by
  have h5 : ∀ t : Nat, t < t + 5 := fun t => by omega
  exact ⟨h5, stall_monitor_fire_times (fun t => t + 5) h5 3 0 12⟩

/-! ## Lemmas about the Job Scheduling Loop -/

lemma schedStep_overdue {E : SchedEnv} {s : SchedState}
    (h : E.next s.nextRun < s.now) :
    schedStep E s
      = ([.overdueWarn (s.now - E.next s.nextRun)], some ⟨s.now, s.now, s.iter⟩) := by
  simp [schedStep, h]

lemma schedStep_shutdown {E : SchedEnv} {s : SchedState}
    (h1 : ¬ E.next s.nextRun < s.now)
    (h2 : cancelBefore E.cancelAt (E.next s.nextRun) = true) :
    schedStep E s = ([.shutdown (max s.now (E.cancelAt.getD 0))], none) := by
  simp [schedStep, h1, h2]

lemma schedStep_fire {E : SchedEnv} {s : SchedState}
    (h1 : ¬ E.next s.nextRun < s.now)
    (h2 : cancelBefore E.cancelAt (E.next s.nextRun) = false) :
    schedStep E s
      = ([.fired s.iter (E.next s.nextRun) (E.next s.nextRun)
            (E.next s.nextRun + E.dur s.iter)],
         some ⟨if E.overlapping then E.next s.nextRun
                else E.next s.nextRun + E.dur s.iter,
               E.next s.nextRun, s.iter + 1⟩) := by
  simp [schedStep, h1, h2]

lemma schedRun_terminal {E : SchedEnv} {s : SchedState} {evs : List SchedEvent}
    (fuel : Nat) (h : schedStep E s = (evs, none)) :
    schedRun E (fuel + 1) s = (evs, true) := by
  simp [schedRun, h]

lemma schedRun_cont {E : SchedEnv} {s s2 : SchedState} {evs : List SchedEvent}
    (fuel : Nat) (h : schedStep E s = (evs, some s2)) :
    schedRun E (fuel + 1) s
      = (evs ++ (schedRun E fuel s2).1, (schedRun E fuel s2).2) := by
  simp [schedRun, h]

lemma firesOf_append (a b : List SchedEvent) :
    firesOf (a ++ b) = firesOf a ++ firesOf b := by
  induction a with
  | nil => rfl
  | cons e a ih => cases e <;> simp [firesOf, ih]

/-- Every invocation a loop run fires starts no earlier than the clock
at the start of the run. -/
lemma fires_ge_now (E : SchedEnv) : ∀ (fuel : Nat) (s : SchedState),
    ∀ f ∈ firesOf (schedRun E fuel s).1, s.now ≤ f.tstart := by
  intro fuel
  induction fuel with
  | zero => intro s f hf; simp [schedRun, firesOf] at hf
  | succ n ih =>
      intro s f hf
      by_cases ho : E.next s.nextRun < s.now
      · rw [schedRun_cont n (schedStep_overdue ho), firesOf_append] at hf
        simp only [firesOf, List.nil_append] at hf
        exact ih ⟨s.now, s.now, s.iter⟩ f hf
      · cases hcb : cancelBefore E.cancelAt (E.next s.nextRun) with
        | true =>
            rw [schedRun_terminal n (schedStep_shutdown ho hcb)] at hf
            simp [firesOf] at hf
        | false =>
            rw [schedRun_cont n (schedStep_fire ho hcb), firesOf_append] at hf
            simp only [firesOf, List.cons_append, List.nil_append, List.mem_cons] at hf
            rcases hf with rfl | hf
            · exact le_of_not_lt ho
            · have h2 := ih _ f hf
              have hnr : s.now ≤ E.next s.nextRun := le_of_not_lt ho
              cases hov : E.overlapping <;> simp [hov] at h2 <;> omega

/-- Every fired invocation starts at its scheduled instant and runs for
its full oracle duration. -/
lemma fires_shape (E : SchedEnv) : ∀ (fuel : Nat) (s : SchedState),
    ∀ f ∈ firesOf (schedRun E fuel s).1,
      f.tstart = f.t0 ∧ f.tend = f.t0 + E.dur f.iter := by
  intro fuel
  induction fuel with
  | zero => intro s f hf; simp [schedRun, firesOf] at hf
  | succ n ih =>
      intro s f hf
      by_cases ho : E.next s.nextRun < s.now
      · rw [schedRun_cont n (schedStep_overdue ho), firesOf_append] at hf
        simp only [firesOf, List.nil_append] at hf
        exact ih _ f hf
      · cases hcb : cancelBefore E.cancelAt (E.next s.nextRun) with
        | true =>
            rw [schedRun_terminal n (schedStep_shutdown ho hcb)] at hf
            simp [firesOf] at hf
        | false =>
            rw [schedRun_cont n (schedStep_fire ho hcb), firesOf_append] at hf
            simp only [firesOf, List.cons_append, List.nil_append, List.mem_cons] at hf
            rcases hf with rfl | hf
            · exact ⟨rfl, rfl⟩
            · exact ih _ f hf

/-- In serialized mode each fired invocation has fully ended before the
next one starts. -/
lemma serialized_pairwise (E : SchedEnv) (hov : E.overlapping = false) :
    ∀ (fuel : Nat) (s : SchedState),
      List.Pairwise (fun a b => a.tend ≤ b.tstart) (firesOf (schedRun E fuel s).1) := by
  intro fuel
  induction fuel with
  | zero => intro s; simp [schedRun, firesOf]
  | succ n ih =>
      intro s
      by_cases ho : E.next s.nextRun < s.now
      · rw [schedRun_cont n (schedStep_overdue ho), firesOf_append]
        simpa only [firesOf, List.nil_append] using ih ⟨s.now, s.now, s.iter⟩
      · cases hcb : cancelBefore E.cancelAt (E.next s.nextRun) with
        | true =>
            rw [schedRun_terminal n (schedStep_shutdown ho hcb)]
            simp [firesOf]
        | false =>
            rw [schedRun_cont n (schedStep_fire ho hcb), firesOf_append]
            simp only [firesOf, List.cons_append, List.nil_append, List.pairwise_cons]
            constructor
            · intro b hb
              have := fires_ge_now E n _ b hb
              simp only [hov, if_false] at this
              exact this
            · exact ih _

/-- A pairwise end-before-start list of invocations has at most one
member executing at any instant. -/
lemma pairwise_executingAt (fs : List Fire)
    (hp : List.Pairwise (fun a b => a.tend ≤ b.tstart) fs) (t : Nat) :
    executingAt fs t ≤ 1 := by
  induction fs with
  | nil => simp [executingAt]
  | cons f fs ih =>
      rw [List.pairwise_cons] at hp
      unfold executingAt at ih ⊢
      rw [List.filter_cons]
      by_cases hf : f.tstart ≤ t ∧ t < f.tend
      · rw [if_pos (decide_eq_true hf)]
        have hz : fs.filter (fun g => decide (g.tstart ≤ t ∧ t < g.tend)) = [] := by
          rw [List.filter_eq_nil_iff]
          intro g hg
          have hgt := hp.1 g hg
          simp only [decide_eq_true_eq, not_and, not_lt]
          omega
        rw [hz]
        simp
      · rw [if_neg (by simpa using hf)]
        exact ih hp.2

/-- Claim C1: with the overlapping policy disabled, at every instant at
most one invocation of the job is executing; the fired invocations are
pairwise ordered so that each has ended (its inline `runJob` call has
returned, which is when the loop proceeds to recompute `nextRun`) before
the next one starts. -/
theorem serialized_at_most_one_running (E : SchedEnv) (hov : E.overlapping = false)
    (fuel t0 t : Nat) :
    executingAt (firesOf (startFunc E fuel t0).1) t ≤ 1
    ∧ List.Pairwise (fun a b => a.tend ≤ b.tstart) (firesOf (startFunc E fuel t0).1) := by
  have hp := serialized_pairwise E hov fuel ⟨t0, t0, 0⟩
  exact ⟨pairwise_executingAt _ hp t, hp⟩

theorem serialized_at_most_one_running_witness :
    slowEnv.overlapping = false
    ∧ (executingAt (firesOf (startFunc slowEnv 4 0).1) 12 ≤ 1
      ∧ List.Pairwise (fun a b => a.tend ≤ b.tstart) (firesOf (startFunc slowEnv 4 0).1)) :=
  ⟨rfl, serialized_at_most_one_running slowEnv rfl 4 0 12⟩

/-- The iteration counters of the invocations fired from state `s` are
the consecutive numbers starting at `s.iter`. -/
lemma iter_range (E : SchedEnv) : ∀ (fuel : Nat) (s : SchedState),
    (firesOf (schedRun E fuel s).1).map Fire.iter
      = List.range' s.iter (firesOf (schedRun E fuel s).1).length := by
  intro fuel
  induction fuel with
  | zero => intro s; simp [schedRun, firesOf]
  | succ n ih =>
      intro s
      by_cases ho : E.next s.nextRun < s.now
      · rw [schedRun_cont n (schedStep_overdue ho), firesOf_append]
        simpa only [firesOf, List.nil_append] using ih ⟨s.now, s.now, s.iter⟩
      · cases hcb : cancelBefore E.cancelAt (E.next s.nextRun) with
        | true =>
            rw [schedRun_terminal n (schedStep_shutdown ho hcb)]
            simp [firesOf]
        | false =>
            rw [schedRun_cont n (schedStep_fire ho hcb), firesOf_append]
            simp only [firesOf, List.cons_append, List.nil_append, List.map_cons,
              List.length_cons, List.range'_succ]
            exact congrArg _ (ih _)

/-- Claim C5: for every job (under either overlapping policy), the
iteration counters attached to its successive invocations are exactly
0, 1, 2, ... — starting at 0, strictly increasing, no gaps, no repeats;
passes that take the overdue branch fire nothing and leave the counter
untouched. -/
theorem iteration_counters_gapless (E : SchedEnv) (fuel t0 : Nat) :
    (firesOf (startFunc E fuel t0).1).map Fire.iter
      = List.range (firesOf (startFunc E fuel t0).1).length := by
  rw [List.range_eq_range']
  exact iter_range E fuel ⟨t0, t0, 0⟩

/-- Counterexample to claim C2, on the tens-grid schedule.  First trace
(`slowEnv`, 25-tick invocations started at 0): the invocation fired at 10
ends at 35, the pass for the missed slot 20 takes the overdue branch at
"now" = 35 — yet the next actual fire happens at 40, the schedule's next
fire time after 35: no fire starts at "now" = 35 and the missed slot 20
is never fired at all (zero fires for it, not exactly one).  Second
trace (`exactEnv`, invocations lasting exactly one period): at the pass
where `nextRun = 20` equals "now" the computed delay is exactly zero —
"non-positive" in the claim's words — yet the loop does not warn or
reset: it fires normally at 20 (the trace contains no overdue warning). -/
theorem overdue_fire_time_counterexample :
    (startFunc slowEnv 3 0).1
      = [.fired 0 10 10 35, .overdueWarn 15, .fired 1 40 40 65]
    ∧ (∀ f ∈ firesOf (startFunc slowEnv 3 0).1, f.tstart ≠ 35 ∧ f.t0 ≠ 20)
    ∧ (startFunc exactEnv 2 0).1 = [.fired 0 10 10 20, .fired 1 20 20 30] := by
  decide

/-- Every invocation fired from a state whose `nextRun` was just reset
to the clock starts strictly later than that clock instant. -/
lemma fires_after_reset (E : SchedEnv) (hnext : ∀ t, t < E.next t)
    (fuel m i : Nat) :
    ∀ f ∈ firesOf (schedRun E fuel ⟨m, m, i⟩).1, m < f.tstart := by
  cases fuel with
  | zero => intro f hf; simp [schedRun, firesOf] at hf
  | succ n =>
      intro f hf
      have ho : ¬ E.next (⟨m, m, i⟩ : SchedState).nextRun < (⟨m, m, i⟩ : SchedState).now := by
        have := hnext m
        simp only []
        omega
      cases hcb : cancelBefore E.cancelAt (E.next (⟨m, m, i⟩ : SchedState).nextRun) with
      | true =>
          rw [schedRun_terminal n (schedStep_shutdown ho hcb)] at hf
          simp [firesOf] at hf
      | false =>
          rw [schedRun_cont n (schedStep_fire ho hcb), firesOf_append] at hf
          simp only [firesOf, List.cons_append, List.nil_append, List.mem_cons] at hf
          rcases hf with rfl | hf
          · exact hnext m
          · have h2 := fires_ge_now E n _ f hf
            have hm := hnext m
            cases hov : E.overlapping <;> simp [hov] at h2 <;> omega

/-- Claim C2 as amended: in a pass whose freshly computed `nextRun` is
strictly in the past (negative delay — a delay of exactly zero fires
normally), the loop fires nothing in that pass: it emits exactly the
overdue warning stating how long overdue the job is, resets `nextRun` to
the current instant, leaves the iteration counter untouched, and
recomputes from there; every invocation fired afterwards starts strictly
after "now" — in particular none starts at "now" and none at the missed
time — so the missed slot gets zero fires and there is no catch-up
burst. -/
theorem overdue_skips_to_future_fire (E : SchedEnv) (hnext : ∀ t, t < E.next t)
    (fuel : Nat) (s : SchedState) (hover : E.next s.nextRun < s.now) :
    (schedRun E (fuel + 1) s).1
      = .overdueWarn (s.now - E.next s.nextRun)
          :: (schedRun E fuel ⟨s.now, s.now, s.iter⟩).1
    ∧ ∀ f ∈ firesOf (schedRun E (fuel + 1) s).1, s.now < f.tstart := by
  have h1 := schedRun_cont fuel (schedStep_overdue hover)
  constructor
  · rw [h1]
    simp
  · intro f hf
    rw [h1, firesOf_append] at hf
    simp only [firesOf, List.nil_append] at hf
    exact fires_after_reset E hnext fuel s.now s.iter f hf

theorem overdue_skips_to_future_fire_witness :
    (∀ t, t < tensNext t)
    ∧ slowEnv.next (⟨35, 10, 1⟩ : SchedState).nextRun < (⟨35, 10, 1⟩ : SchedState).now
    ∧ ((schedRun slowEnv (1 + 1) ⟨35, 10, 1⟩).1
        = .overdueWarn ((⟨35, 10, 1⟩ : SchedState).now - slowEnv.next 10)
            :: (schedRun slowEnv 1 ⟨35, 35, 1⟩).1
      ∧ ∀ f ∈ firesOf (schedRun slowEnv (1 + 1) ⟨35, 10, 1⟩).1, 35 < f.tstart) := by
  have hnext : ∀ t, t < tensNext t := by
    intro t
    unfold tensNext
    omega
  exact ⟨hnext, by decide, overdue_skips_to_future_fire slowEnv hnext 1 ⟨35, 10, 1⟩ (by decide)⟩

/-- Claim C10: the loop consults the cancellation token only inside the
select of the sleep-wait.  A pass taking the overdue branch behaves
identically whatever the token's state (the step does not depend on
`cancelAt` at all) and always continues into the recomputation; dually,
the loop can only return in a pass whose computed delay is non-negative
and whose select observes the token. -/
theorem cancellation_checked_in_select_only (E : SchedEnv) (s : SchedState) :
    (E.next s.nextRun < s.now →
        (∀ c : Option Nat, schedStep { E with cancelAt := c } s = schedStep E s)
        ∧ (schedStep E s).2 = some ⟨s.now, s.now, s.iter⟩)
    ∧ ((schedStep E s).2 = none →
        s.now ≤ E.next s.nextRun
        ∧ cancelBefore E.cancelAt (E.next s.nextRun) = true) := by
  constructor
  · intro ho
    constructor
    · intro c
      rw [schedStep_overdue ho,
        schedStep_overdue (show ({E with cancelAt := c} : SchedEnv).next s.nextRun < s.now from ho)]
    · rw [schedStep_overdue ho]
  · intro hnone
    by_cases ho : E.next s.nextRun < s.now
    · rw [schedStep_overdue ho] at hnone
      simp at hnone
    · cases hcb : cancelBefore E.cancelAt (E.next s.nextRun) with
      | false =>
          rw [schedStep_fire ho hcb] at hnone
          simp at hnone
      | true => exact ⟨le_of_not_lt ho, rfl⟩

theorem cancellation_checked_in_select_only_witness :
    earlyCancelEnv.next (⟨35, 10, 1⟩ : SchedState).nextRun < (⟨35, 10, 1⟩ : SchedState).now
    ∧ ((∀ c : Option Nat,
        schedStep { earlyCancelEnv with cancelAt := c } ⟨35, 10, 1⟩
          = schedStep earlyCancelEnv ⟨35, 10, 1⟩)
      ∧ (schedStep earlyCancelEnv ⟨35, 10, 1⟩).2 = some ⟨35, 35, 1⟩) :=
  ⟨by decide, (cancellation_checked_in_select_only earlyCancelEnv ⟨35, 10, 1⟩).1 (by decide)⟩

/-- A loop run that exited by observing the token emits the shutdown
event last: after it, no further event — in particular no new
invocation — occurs. -/
lemma shutdown_last (E : SchedEnv) : ∀ (fuel : Nat) (s : SchedState),
    (schedRun E fuel s).2 = true →
    ∃ evs0 t, (schedRun E fuel s).1 = evs0 ++ [SchedEvent.shutdown t]
      ∧ ∀ t2, SchedEvent.shutdown t2 ∉ evs0 := by
  intro fuel
  induction fuel with
  | zero => intro s h; simp [schedRun] at h
  | succ n ih =>
      intro s h
      by_cases ho : E.next s.nextRun < s.now
      · rw [schedRun_cont n (schedStep_overdue ho)] at h ⊢
        simp only at h
        obtain ⟨evs0, t, he, hn⟩ := ih ⟨s.now, s.now, s.iter⟩ h
        refine ⟨.overdueWarn (s.now - E.next s.nextRun) :: evs0, t, by simp [he], ?_⟩
        intro t2
        simp [hn t2]
      · cases hcb : cancelBefore E.cancelAt (E.next s.nextRun) with
        | true =>
            rw [schedRun_terminal n (schedStep_shutdown ho hcb)]
            exact ⟨[], max s.now (E.cancelAt.getD 0), by simp, by simp⟩
        | false =>
            rw [schedRun_cont n (schedStep_fire ho hcb)] at h ⊢
            simp only at h
            obtain ⟨evs0, t, he, hn⟩ := ih _ h
            refine ⟨.fired s.iter (E.next s.nextRun) (E.next s.nextRun)
              (E.next s.nextRun + E.dur s.iter) :: evs0, t, by simp [he], ?_⟩
            intro t2
            simp [hn t2]

lemma le_foldl_max {α : Type} (g : α → Nat) (l : List α) :
    ∀ a : Nat, a ≤ l.foldl (fun m e => max m (g e)) a
      ∧ ∀ e ∈ l, g e ≤ l.foldl (fun m e => max m (g e)) a := by
  induction l with
  | nil => intro a; simp
  | cons x l ih =>
      intro a
      refine ⟨le_trans (le_max_left a (g x)) (ih (max a (g x))).1, ?_⟩
      intro e he
      rcases List.mem_cons.mp he with rfl | he2
      · exact le_trans (le_max_right a (g e)) (ih (max a (g e))).1
      · exact (ih (max a (g x))).2 e he2

/-- A fired invocation in the trace is a fired event of the trace. -/
lemma firesOf_mem_event : ∀ (evs : List SchedEvent) (f : Fire), f ∈ firesOf evs →
    SchedEvent.fired f.iter f.t0 f.tstart f.tend ∈ evs := by
  intro evs
  induction evs with
  | nil => intro f hf; simp [firesOf] at hf
  | cons e evs ih =>
      intro f hf
      cases e with
      | fired i t0 ts te =>
          rcases List.mem_cons.mp hf with rfl | hf2
          · exact List.mem_cons_self _ _
          · exact List.mem_cons_of_mem _ (ih f hf2)
      | overdueWarn lb => exact List.mem_cons_of_mem _ (ih f hf)
      | shutdown t => exact List.mem_cons_of_mem _ (ih f hf)

lemma fire_le_loopExit {evs : List SchedEvent} {f : Fire} (hf : f ∈ firesOf evs) :
    f.tend ≤ loopExit evs := by
  have hm := firesOf_mem_event evs f hf
  have := (le_foldl_max eventEnd evs 0).2 _ hm
  simpa [eventEnd, loopExit] using this

lemma loopExit_le_orchestratorWait {runs : List (List SchedEvent)} {evs : List SchedEvent}
    (h : evs ∈ runs) : loopExit evs ≤ orchestratorWait runs :=
  (le_foldl_max loopExit runs 0).2 evs h

/-- Claim C3: cancellation is advisory to scheduling only.  Every loop
that exits after observing the token emits the shutdown event last, so
it starts no invocation after observing the token; every fired
invocation of every job runs its full natural duration (no child is
forcibly terminated) and has ended by the time its loop goroutine exits
(the deferred per-job tracker wait) and hence by the time the
orchestrator's wait over all loops returns. -/
theorem graceful_shutdown_drains (jobs : List SchedEnv) (fuel t0 : Nat) :
    (∀ E ∈ jobs, (startFunc E fuel t0).2 = true →
        ∃ evs0 t, (startFunc E fuel t0).1 = evs0 ++ [SchedEvent.shutdown t]
          ∧ ∀ t2, SchedEvent.shutdown t2 ∉ evs0)
    ∧ (∀ E ∈ jobs, ∀ f ∈ firesOf (startFunc E fuel t0).1,
        f.tend = f.tstart + E.dur f.iter
        ∧ f.tend ≤ loopExit (startFunc E fuel t0).1
        ∧ f.tend ≤ orchestratorWait (jobs.map (fun E2 => (startFunc E2 fuel t0).1))) := by
  constructor
  · intro E _ h
    exact shutdown_last E fuel ⟨t0, t0, 0⟩ h
  · intro E hE f hf
    have hs := fires_shape E fuel ⟨t0, t0, 0⟩ f hf
    have hl : f.tend ≤ loopExit (startFunc E fuel t0).1 := fire_le_loopExit hf
    refine ⟨by rw [hs.1]; exact hs.2, hl, le_trans hl ?_⟩
    exact loopExit_le_orchestratorWait (List.mem_map_of_mem _ hE)

theorem graceful_shutdown_drains_witness :
    cancelEnv ∈ [cancelEnv]
    ∧ (startFunc cancelEnv 6 0).2 = true
    ∧ (∃ evs0 t, (startFunc cancelEnv 6 0).1 = evs0 ++ [SchedEvent.shutdown t]
        ∧ ∀ t2, SchedEvent.shutdown t2 ∉ evs0) :=
  ⟨by simp, by decide,
    (graceful_shutdown_drains [cancelEnv] 6 0).1 cancelEnv (by simp) (by decide)⟩

end Supercronic
